import Mathlib

/-!
A shallow embedding of the wind-analysis engine of `wind_analysis_tool.py`
(the function `windanalysis` and the static table `DURUM_KODLARI`), together
with proofs about it.

Modelling conventions:
* Numeric values (speeds, temperatures, thresholds) live in an arbitrary
  linear ordered field `K`; concrete witnesses instantiate `K := ℚ`.
* `statistics.stdev` returns a square root, which is irrational in general,
  so the standard deviation is threaded through as a parameter `std : K`
  constrained by `IsStdSapma` (nonnegative, squaring to the sample variance,
  and `0` for fewer than two samples), exactly the value the source computes.
* Python's `round(x, 2)` is round-half-even on hundredths (`pyRound2`).
* Python division that can raise `ZeroDivisionError` is modelled by
  `safeDiv` returning `Except Unit K`; the whole engine therefore returns
  `Except Unit (SonRapor K)`, where `Except.error ()` is a propagated
  `ZeroDivisionError`.
* The presentation-only parameters of the source (`verbose`, `output_format`,
  `save_svg`, the Rich console) produce no analysis data and are omitted.
* The source signature (line 65) has no clock parameter: the engine reads
  the wall clock internally, at line 395, via
  `datetime.now().strftime(...)`.  The parameter `now : String` models the
  string that internal call returns during the run — it is the standard
  shallow embedding of an effectful read, not a clock-injection feature of
  the source (the source has none; see `c3_internal_clock_dataflow`).
-/

deriving instance DecidableEq for Except

namespace Wind

variable {K : Type} [LinearOrderedField K] [FloorRing K]

/-- Round half to even, to an integer: the rounding mode of Python `round`. -/
def rhe (x : K) : ℤ :=
  if x - ⌊x⌋ < 1 / 2 then ⌊x⌋
  else if (1 / 2 : K) < x - ⌊x⌋ then ⌊x⌋ + 1
  else if ⌊x⌋ % 2 = 0 then ⌊x⌋ else ⌊x⌋ + 1

/-- Python's `round(x, 2)`: round half to even on hundredths. -/
def pyRound2 (x : K) : K := (rhe (100 * x) : K) / 100

/-- Python `/`, which raises `ZeroDivisionError` on a zero denominator. -/
def safeDiv (a b : K) : Except Unit K := if b = 0 then .error () else .ok (a / b)

/-- Python `statistics.mean` (junk value `0` on `[]`; the source only calls it on
nonempty lists). -/
def mean (l : List K) : K := l.sum / (l.length : K)

/-- Python `min` on a list (junk value `0` on `[]`). -/
def listMin : List K → K
  | [] => 0
  | x :: xs => xs.foldl min x

/-- Python `max` on a list (junk value `0` on `[]`). -/
def listMax : List K → K
  | [] => 0
  | x :: xs => xs.foldl max x

/-- Python `statistics.median`: middle element of the sorted list, or the average of
the two middle elements. -/
def medyan (l : List K) : K :=
  let s := l.insertionSort (· ≤ ·)
  if l.length % 2 = 1 then s.getD (l.length / 2) 0
  else (s.getD (l.length / 2 - 1) 0 + s.getD (l.length / 2) 0) / 2

/-- Sample variance (denominator `n - 1`), the square of `statistics.stdev`. -/
def varyans (l : List K) : K :=
  ((l.map (fun x => (x - mean l) ^ 2)).sum) / ((l.length : K) - 1)

/-- Property: `s` is the value `statistics.stdev(l) if len(l) > 1 else 0` computed at
line 112 of the source: `0` for fewer than two samples, otherwise the
nonnegative square root of the sample variance. -/
def IsStdSapma (l : List K) (s : K) : Prop :=
  if l.length ≤ 1 then s = 0 else 0 ≤ s ∧ s ^ 2 = varyans l

/-- One input sample, with the fields of the input dictionaries that
`windanalysis` reads: `zaman.tam`, `zaman.saat`, `zaman.dakika`,
`ruzgar.hiz`, `ruzgar.yon`, `sicaklik`. -/
structure Sample (K : Type) where
  tam : String
  saat : ℕ
  dakika : ℕ
  hiz : K
  yon : String
  sicaklik : K
deriving DecidableEq

/-- The `kod` column of the static table `DURUM_KODLARI`. -/
def durumKod : String → ℤ
  | "NORMAL" => 0
  | "DUSUK_RUZGAR" => 1
  | "YUKSEK_RUZGAR" => 2
  | "ANOMALI_YUKSEK" => 3
  | "ANOMALI_DUSUK" => 4
  | "ISTIKRARSIZ" => 5
  | "TREND_ARTIS" => 10
  | "TREND_AZALIS" => 11
  | "TREND_SABIT" => 12
  | _ => -1

/-- The `aciklama` column of the static table `DURUM_KODLARI`. -/
def durumAciklama : String → String
  | "NORMAL" => "Normal rüzgar koşulları"
  | "DUSUK_RUZGAR" => "Ortalamanın altında rüzgar"
  | "YUKSEK_RUZGAR" => "Ortalamanın üstünde rüzgar"
  | "ANOMALI_YUKSEK" => "Yüksek rüzgar anomalisi"
  | "ANOMALI_DUSUK" => "Düşük rüzgar anomalisi"
  | "ISTIKRARSIZ" => "İstikrarsız rüzgar paterni"
  | "TREND_ARTIS" => "Rüzgar hızı artış trendinde"
  | "TREND_AZALIS" => "Rüzgar hızı azalış trendinde"
  | "TREND_SABIT" => "Rüzgar hızı stabil"
  | _ => ""

/-- Line 126: `ust_esik = ortalama_hiz + (1.5 * std_sapma)`. -/
def ust_esik (ort std : K) : K := ort + 3 / 2 * std

/-- Line 127: `alt_esik = max(0, ortalama_hiz - (1.5 * std_sapma))`. -/
def alt_esik (ort std : K) : K := max 0 (ort - 3 / 2 * std)

/-- The volatility ratio of line 130:
`(std_sapma / ortalama_hiz) * 100 if ortalama_hiz > 0 else 0`. -/
def volatilite_orani (ort std : K) : K := if 0 < ort then std / ort * 100 else 0

/-- Modelled from the claim's wording (C4): the volatility ratio
`stddev/mean·100` guarded to `0` exactly when `mean = 0`; to be compared
with the source's `volatilite_orani`, which guards on `mean > 0`. -/
def volatilite_spec (ort std : K) : K := if ort = 0 then 0 else std / ort * 100

/-- The overall classification of lines 126-139 of the source. -/
def genel_durum (hizlar : List K) (std : K) : String :=
  let ort := mean hizlar
  let vol := volatilite_orani ort std
  if 30 < vol then "ISTIKRARSIZ"
  else if ust_esik ort std < listMax hizlar then "YUKSEK_RUZGAR"
  else if listMin hizlar < alt_esik ort std then "DUSUK_RUZGAR"
  else "NORMAL"

/-- One anomaly record (the dictionaries appended at lines 163-172 and
188-197 of the source). -/
structure Anomali (K : Type) where
  zaman : String
  hiz : K
  yon : String
  durum_kodu : ℤ
  durum : String
  sapma_yuzdesi : K
  ortalamadan_fark : K
  neden_analizi : List String
deriving DecidableEq

/-- The `ANOMALI_YUKSEK` record built at lines 150-172 for index `i`,
given the already-divided deviation percentage `sapma`. -/
def mkYuksek (data : List (Sample K)) (i : ℕ) (sapma : K) : Anomali K :=
  let hizlar := data.map (·.hiz)
  let sicakliklar := data.map (·.sicaklik)
  let ort := mean hizlar
  let tort := mean sicakliklar
  let hiz := hizlar.getD i 0
  let neden :=
    (if 0 < i ∧ hizlar.getD (i - 1) 0 < ort
      then ["Ani rüzgar artışı - Atmosferik değişim"] else []) ++
    (if sicakliklar.getD i 0 < (tort - 2 : K)
      then ["Düşük sıcaklık korelasyonu"] else []) ++
    (if listMax hizlar * (9 / 10) ≤ hiz
      then ["Dönem maksimum seviyesine yakın"] else [])
  { zaman := (data.map (fun s => s.tam)).getD i ""
    hiz := hiz
    yon := (data.map (·.yon)).getD i ""
    durum_kodu := durumKod "ANOMALI_YUKSEK"
    durum := "ANOMALI_YUKSEK"
    sapma_yuzdesi := pyRound2 sapma
    ortalamadan_fark := pyRound2 (hiz - ort)
    neden_analizi := if neden = [] then ["Standart meteorolojik varyasyon"] else neden }

/-- The `ANOMALI_DUSUK` record built at lines 175-197 for index `i`,
given the already-divided deviation percentage `sapma`. -/
def mkDusuk (data : List (Sample K)) (i : ℕ) (sapma : K) : Anomali K :=
  let hizlar := data.map (·.hiz)
  let sicakliklar := data.map (·.sicaklik)
  let ort := mean hizlar
  let tort := mean sicakliklar
  let hiz := hizlar.getD i 0
  let neden :=
    (if 0 < i ∧ ort < hizlar.getD (i - 1) 0 then ["Ani sakinleşme"] else []) ++
    (if (tort + 2 : K) < sicakliklar.getD i 0
      then ["Yüksek sıcaklık korelasyonu"] else [])
  { zaman := (data.map (fun s => s.tam)).getD i ""
    hiz := hiz
    yon := (data.map (·.yon)).getD i ""
    durum_kodu := durumKod "ANOMALI_DUSUK"
    durum := "ANOMALI_DUSUK"
    sapma_yuzdesi := pyRound2 sapma
    ortalamadan_fark := pyRound2 (ort - hiz)
    neden_analizi := if neden = [] then ["Rüzgar sakinliği"] else neden }

/-- The anomaly loop of lines 142-197, from index `i` on, with explicit
fuel (structural recursion, so that concrete instances evaluate): each
iteration consumes one unit and advances `i`, so with the fuel
`data.length` used by `anomaliler` the fuel is exhausted exactly when the
loop condition `i < len(data)` first fails.  The two divisions by
`ortalama_hiz` (lines 148 and 176) go through `safeDiv` because the source
does not guard them: a zero mean propagates `ZeroDivisionError`. -/
def anomaliGo (data : List (Sample K)) (std : K) :
    ℕ → ℕ → Except Unit (List (Anomali K))
  | 0, _ => .ok []
  | fuel + 1, i =>
    if i < data.length then
      let hizlar := data.map (·.hiz)
      let ort := mean hizlar
      let ust := ust_esik ort std
      let alt := alt_esik ort std
      let hiz := hizlar.getD i 0
      if ust < hiz then
        match safeDiv (hiz - ort) ort with
        | .error e => .error e
        | .ok q =>
          match anomaliGo data std fuel (i + 1) with
          | .error e => .error e
          | .ok rest => .ok (mkYuksek data i (q * 100) :: rest)
      else if hiz < alt ∧ 0 < alt then
        match safeDiv (ort - hiz) ort with
        | .error e => .error e
        | .ok q =>
          match anomaliGo data std fuel (i + 1) with
          | .error e => .error e
          | .ok rest => .ok (mkDusuk data i (q * 100) :: rest)
      else anomaliGo data std fuel (i + 1)
    else .ok []

/-- The full anomaly pass (`anomaliler` in the source). -/
def anomaliler (data : List (Sample K)) (std : K) : Except Unit (List (Anomali K)) :=
  anomaliGo data std data.length 0

/-- The record sample `i` contributes when no division faults: specification
view of one iteration of the anomaly loop (plain field division in place of
`safeDiv`; they agree whenever the mean is nonzero). -/
def anomaliAt (data : List (Sample K)) (std : K) (i : ℕ) : Option (Anomali K) :=
  let hizlar := data.map (·.hiz)
  let ort := mean hizlar
  let ust := ust_esik ort std
  let alt := alt_esik ort std
  let hiz := hizlar.getD i 0
  if ust < hiz then some (mkYuksek data i ((hiz - ort) / ort * 100))
  else if hiz < alt ∧ 0 < alt then some (mkDusuk data i ((ort - hiz) / ort * 100))
  else none

/-- The index list `[i, i+1, ..., n-1]` truncated to `fuel` elements: the
iteration space of the anomaly loop, with the same fuel discipline. -/
def idxFromGo (n : ℕ) : ℕ → ℕ → List ℕ
  | 0, _ => []
  | fuel + 1, i => if i < n then i :: idxFromGo n fuel (i + 1) else []

/-- Trend classifications of the segmenter (`ARTIS` / `AZALIS` / `SABIT`). -/
inductive Trend : Type
  | artis
  | azalis
  | sabit
deriving DecidableEq

/-- A maximal run found by the scan of lines 223-267: the indices
`baslangic`/`bitis` of the source together with the chosen trend. -/
structure Run : Type where
  baslangic : ℕ
  bitis : ℕ
  trend : Trend
deriving DecidableEq

/-- The inner while loop of lines 232-233 with explicit fuel: starting at
`i`, advance while `ruzgar_hizlari[i+1] >= ruzgar_hizlari[i]` (and
`i < n - 1`).  Each step increments `i`, and the loop condition fails as
soon as `i ≥ n - 1`, so the fuel `hizlar.length` used by `extendUp` never
runs out before the condition fails: the wrappers compute exactly the
source's loops. -/
def extendUpGo (hizlar : List K) : ℕ → ℕ → ℕ
  | 0, i => i
  | fuel + 1, i =>
    if i < hizlar.length - 1 ∧ hizlar.getD i 0 ≤ hizlar.getD (i + 1) 0 then
      extendUpGo hizlar fuel (i + 1)
    else i

/-- The inner while loop of lines 237-238 with explicit fuel: advance while
`ruzgar_hizlari[i+1] <= ruzgar_hizlari[i]`. -/
def extendDownGo (hizlar : List K) : ℕ → ℕ → ℕ
  | 0, i => i
  | fuel + 1, i =>
    if i < hizlar.length - 1 ∧ hizlar.getD (i + 1) 0 ≤ hizlar.getD i 0 then
      extendDownGo hizlar fuel (i + 1)
    else i

/-- The inner while loop of lines 242-243 with explicit fuel: advance while
`abs(ruzgar_hizlari[i+1] - ruzgar_hizlari[i]) <= 1`. -/
def extendStableGo (hizlar : List K) : ℕ → ℕ → ℕ
  | 0, i => i
  | fuel + 1, i =>
    if i < hizlar.length - 1 ∧ |hizlar.getD (i + 1) 0 - hizlar.getD i 0| ≤ 1 then
      extendStableGo hizlar fuel (i + 1)
    else i

/-- Lines 232-233: the rising-run extension. -/
def extendUp (hizlar : List K) (i : ℕ) : ℕ := extendUpGo hizlar hizlar.length i

/-- Lines 237-238: the falling-run extension. -/
def extendDown (hizlar : List K) (i : ℕ) : ℕ := extendDownGo hizlar hizlar.length i

/-- Lines 242-243: the stable-run extension. -/
def extendStable (hizlar : List K) (i : ℕ) : ℕ := extendStableGo hizlar hizlar.length i

/-- One iteration of the outer scan starting at `i` (lines 229-245): pick the
trend by comparing `speed[i+1]` against `speed[i] ± 1`, then extend. -/
def nextRun (hizlar : List K) (i : ℕ) : Run :=
  if hizlar.getD i 0 + 1 < hizlar.getD (i + 1) 0 then ⟨i, extendUp hizlar i, .artis⟩
  else if hizlar.getD (i + 1) 0 < hizlar.getD i 0 - 1 then ⟨i, extendDown hizlar i, .azalis⟩
  else ⟨i, extendStable hizlar i, .sabit⟩

/-- The outer while loop of lines 223-267, with explicit fuel.  Each
iteration advances `i` to `bitis + 1` and consumes one unit of fuel; since
`bitis ≥ i` always holds, fuel `hizlar.length + 1` (as used by `trendRuns`)
can never run out before the loop condition `i < n - 1` fails, so the fuel
variant computes exactly the source's run list.  A run is recorded only when
`bitis > baslangic` (line 247). -/
def trendRunsGo (hizlar : List K) : ℕ → ℕ → List Run
  | 0, _ => []
  | fuel + 1, i =>
    if i < hizlar.length - 1 then
      let r := nextRun hizlar i
      (if r.baslangic < r.bitis then [r] else []) ++ trendRunsGo hizlar fuel (r.bitis + 1)
    else []

/-- All runs recorded by the trend scan, in scan order. -/
def trendRuns (hizlar : List K) : List Run :=
  trendRunsGo hizlar (hizlar.length + 1) 0

/-- One trend period record (the dictionary built at lines 248-258). -/
structure Periyot (K : Type) where
  baslangic_saat : String
  bitis_saat : String
  baslangic_hiz : K
  bitis_hiz : K
  degisim : K
  sure_saat : ℕ
  ortalama_hiz : K
  durum_kodu : ℤ
  durum : String
deriving DecidableEq

/-- The `durum` string stored for a trend (`TREND_ARTIS` etc.). -/
def trendAd : Trend → String
  | .artis => "TREND_ARTIS"
  | .azalis => "TREND_AZALIS"
  | .sabit => "TREND_SABIT"

/-- Build the period record of lines 248-258 from a recorded run. -/
def mkPeriyot (data : List (Sample K)) (r : Run) : Periyot K :=
  let hizlar := data.map (·.hiz)
  let zamanlar := data.map (fun s => s.tam)
  { baslangic_saat := zamanlar.getD r.baslangic ""
    bitis_saat := zamanlar.getD r.bitis ""
    baslangic_hiz := hizlar.getD r.baslangic 0
    bitis_hiz := hizlar.getD r.bitis 0
    degisim := pyRound2 (hizlar.getD r.bitis 0 - hizlar.getD r.baslangic 0)
    sure_saat := r.bitis - r.baslangic
    ortalama_hiz := pyRound2 (mean ((hizlar.drop r.baslangic).take (r.bitis + 1 - r.baslangic)))
    durum_kodu := durumKod (trendAd r.trend)
    durum := trendAd r.trend }

/-- Source `hiz_artis_periyotlari`: records of the rising runs, in scan order. -/
def artis_periyotlari (data : List (Sample K)) : List (Periyot K) :=
  (((trendRuns (data.map (·.hiz)))).filter (fun r => r.trend == Trend.artis)).map
    (mkPeriyot data)

/-- Source `hiz_azalis_periyotlari`: records of the falling runs, in scan order. -/
def azalis_periyotlari (data : List (Sample K)) : List (Periyot K) :=
  (((trendRuns (data.map (·.hiz)))).filter (fun r => r.trend == Trend.azalis)).map
    (mkPeriyot data)

/-- Source `sabit_periyotlar`: records of the stable runs, in scan order. -/
def sabit_periyotlari (data : List (Sample K)) : List (Periyot K) :=
  (((trendRuns (data.map (·.hiz)))).filter (fun r => r.trend == Trend.sabit)).map
    (mkPeriyot data)

/-- One step of the tabulation loop of lines 288-289
(`yon_frekans[yon] = yon_frekans.get(yon, 0) + 1`): a Python dict is
insertion ordered, so it is an association list where a new key is appended
at the end and an existing key is updated in place. -/
def yonStep (acc : List (String × ℕ)) (y : String) : List (String × ℕ) :=
  if acc.any (fun p => p.1 = y) then
    acc.map (fun p => if p.1 = y then (p.1, p.2 + 1) else p)
  else acc ++ [(y, 1)]

/-- The direction frequency table of lines 287-289. -/
def yon_frekans (yonler : List String) : List (String × ℕ) :=
  yonler.foldl yonStep []

/-- Index of the first occurrence of `a` in `l` (`l.length` when absent):
the "first encountered in input order" position of a direction. -/
def ilkIndeks : List String → String → ℕ
  | [], _ => 0
  | x :: xs, a => if x = a then 0 else ilkIndeks xs a + 1

/-- Line 291, `max(yon_frekans, key=yon_frekans.get)`: the first key of the
table attaining the maximal count (Python's `max` keeps the earlier element
on ties).  Junk value `""` on an empty table. -/
def hakim_yon (freq : List (String × ℕ)) : String :=
  match freq with
  | [] => ""
  | p :: rest => (rest.foldl (fun en q => if en.2 < q.2 then q else en) p).1

/-- One row of `yon_dagilim` (lines 292-299). -/
structure YonKayit (K : Type) where
  yon : String
  frekans : ℕ
  yuzde : K
deriving DecidableEq

/-- Source `yon_dagilim`: the table sorted by descending count (Python `sorted` is
stable, as is insertion sort), with percentages rounded to 2 decimals. -/
def yon_dagilim (yonler : List String) : List (YonKayit K) :=
  ((yon_frekans yonler).insertionSort (fun p q => q.2 ≤ p.2)).map
    (fun p => ⟨p.1, p.2, pyRound2 ((p.2 : K) / (yonler.length : K) * 100)⟩)

/-- One hourly bucket (the dictionaries built at lines 340-346 and 361-367). -/
structure Saatlik (K : Type) where
  saat : String
  ortalama_hiz : K
  durum : String
  durum_kodu : ℤ
  veri_sayisi : ℕ
deriving DecidableEq

/-- The label `f"{current_hour:02d}:00"`. -/
def saatEtiket (c : ℕ) : String :=
  (if c < 10 then "0" ++ Nat.repr c else Nat.repr c) ++ ":00"

/-- Build one hourly bucket from the accumulated speeds of hour `cur`,
classifying against the 1.0-sigma thresholds (lines 331-346).  `cur` is
always `some` when the speed list is nonempty. -/
def mkSaatlik (ort std : K) (cur : Option ℕ) (hs : List K) : Saatlik K :=
  let avg := mean hs
  let durum :=
    if ort + std < avg then "YUKSEK_RUZGAR"
    else if avg < ort - std then "DUSUK_RUZGAR"
    else "NORMAL"
  { saat := saatEtiket (cur.getD 0)
    ortalama_hiz := pyRound2 avg
    durum := durum
    durum_kodu := durumKod durum
    veri_sayisi := hs.length }

/-- The hourly loop of lines 316-367, carrying `current_hour`, the speeds of
the open bucket, and the buckets already flushed; the `[]` case is the final
`if hour_speeds:` flush of lines 351-367. -/
def saatGo (ort std : K) : List (Sample K) → Option ℕ → List K → List (Saatlik K) →
    List (Saatlik K)
  | [], cur, hs, acc => if hs.isEmpty then acc else acc ++ [mkSaatlik ort std cur hs]
  | e :: rest, cur, hs, acc =>
    match cur with
    | none => saatGo ort std rest (some e.saat) [e.hiz] acc
    | some c =>
      if e.saat = c then saatGo ort std rest (some c) (hs ++ [e.hiz]) acc
      else saatGo ort std rest (some e.saat) [e.hiz] (acc ++ [mkSaatlik ort std (some c) hs])

/-- Source `saat_analizi`: the full hourly aggregation. -/
def saatlik_analiz (data : List (Sample K)) (std : K) : List (Saatlik K) :=
  saatGo (mean (data.map (·.hiz))) std data none [] []

/-- The success report of lines 394-433 (`rapor`), flattened; field names
follow the dictionary keys.  The constant reference table
`durum_kodlari_referans` and the presentation-only `content`/`svg` entries
are omitted. -/
structure Rapor (K : Type) where
  rapor_zamani : String
  durum : String
  genel_durum : String
  genel_durum_kodu : ℤ
  genel_aciklama : String
  toplam_veri_noktasi : ℕ
  baslangic_zamani : String
  bitis_zamani : String
  ortalama_ruzgar_hizi : K
  medyan_ruzgar_hizi : K
  minimum_ruzgar_hizi : K
  maksimum_ruzgar_hizi : K
  standart_sapma : K
  volatilite_orani_yuzde : K
  ust_anomali_esigi : K
  alt_anomali_esigi : K
  hakim_ruzgar_yonu : String
  yon_dagilimi : List (YonKayit K)
  toplam_anomali_sayisi : ℕ
  anomali_orani_yuzde : K
  tespit_edilen_anomaliler : List (Anomali K)
  artis_p : List (Periyot K)
  azalis_p : List (Periyot K)
  sabit_p : List (Periyot K)
  saatlik : List (Saatlik K)
deriving DecidableEq

/-- The value `windanalysis` returns: either the empty-input failure
dictionary of lines 80-84 or the success report. -/
inductive SonRapor (K : Type) : Type
  | hata (hata_mesaji : String) (durum_kodu : ℤ) (durum : String)
  | basarili (r : Rapor K)
deriving DecidableEq

/-- The engine `windanalysis` (lines 65-455).  The source takes no clock
argument: `now` models the string its internal
`datetime.now().strftime("%Y-%m-%d %H:%M:%S")` call (line 395) returns at
run time, and `std` the value of line 112 (see `IsStdSapma`).  A
`ZeroDivisionError` raised by the anomaly pass propagates as
`Except.error ()` before any report is assembled. -/
def windanalysis (data : List (Sample K)) (now : String) (std : K) :
    Except Unit (SonRapor K) :=
  match data with
  | [] => .ok (.hata "Veri bulunamadı" (-1) "BAŞARISIZ")
  | _ :: _ =>
    let hizlar := data.map (·.hiz)
    let zamanlar := data.map (fun s => s.tam)
    let yonler := data.map (·.yon)
    let ort := mean hizlar
    let genel := genel_durum hizlar std
    match anomaliler data std with
    | .error e => .error e
    | .ok anoms =>
      .ok (.basarili
        { rapor_zamani := now
          durum := "BAŞARILI"
          genel_durum := genel
          genel_durum_kodu := durumKod genel
          genel_aciklama := durumAciklama genel
          toplam_veri_noktasi := data.length
          baslangic_zamani := zamanlar.headD "Bilinmiyor"
          bitis_zamani := zamanlar.getLastD "Bilinmiyor"
          ortalama_ruzgar_hizi := pyRound2 ort
          medyan_ruzgar_hizi := pyRound2 (medyan hizlar)
          minimum_ruzgar_hizi := listMin hizlar
          maksimum_ruzgar_hizi := listMax hizlar
          standart_sapma := pyRound2 std
          volatilite_orani_yuzde := pyRound2 (volatilite_orani ort std)
          ust_anomali_esigi := pyRound2 (ust_esik ort std)
          alt_anomali_esigi := pyRound2 (alt_esik ort std)
          hakim_ruzgar_yonu := hakim_yon (yon_frekans yonler)
          yon_dagilimi := yon_dagilim yonler
          toplam_anomali_sayisi := anoms.length
          anomali_orani_yuzde := pyRound2 ((anoms.length : K) / (data.length : K) * 100)
          tespit_edilen_anomaliler := anoms
          artis_p := artis_periyotlari data
          azalis_p := azalis_periyotlari data
          sabit_p := sabit_periyotlari data
          saatlik := saatlik_analiz data std })

/-- Overwrite the `rapor_zamani` field of a success report. -/
def setRaporZamani (r : SonRapor K) (s : String) : SonRapor K :=
  match r with
  | .hata m k d => .hata m k d
  | .basarili rep => .basarili { rep with rapor_zamani := s }

/-- Project the `rapor_zamani` field of a success report. -/
def raporZamaniOf : SonRapor K → Option String
  | .hata _ _ _ => none
  | .basarili rep => some rep.rapor_zamani

instance (l : List K) (s : K) : Decidable (IsStdSapma l s) := by
  unfold IsStdSapma
  infer_instance

/-! ### Concrete inputs used by witnesses and counterexamples -/

/-- Helper constructor for concrete rational samples (minute fixed to 0). -/
def orn (t : String) (s : ℕ) (h : ℚ) (y : String) (c : ℚ) : Sample ℚ :=
  ⟨t, s, 0, h, y, c⟩

/-- The 9-sample fixture of the source's own test block (speeds
`[11,11,11,13,15,22,18,14,12]`, directions `[GGD,GGD,GGD,GD,GD,GD,GGD,GGD,G]`,
hours 10..18). -/
def veriOrnek : List (Sample ℚ) :=
  [orn "10:00" 10 11 "GGD" 6, orn "11:00" 11 11 "GGD" 7, orn "12:00" 12 11 "GGD" 8,
   orn "13:00" 13 13 "GD" 9, orn "14:00" 14 15 "GD" 10, orn "15:00" 15 22 "GD" 9,
   orn "16:00" 16 18 "GGD" 8, orn "17:00" 17 14 "GGD" 7, orn "18:00" 18 12 "G" 6]

/-- Nine samples with speeds `[8, -1, ..., -1]`: mean `0`, sample variance
`9`, hence standard deviation exactly `3`.  The sample `8` exceeds
`upper = 0 + 1.5·3 = 4.5`, so the anomaly pass divides by the zero mean. -/
def veriSifirOrt : List (Sample ℚ) :=
  orn "00:00" 0 8 "N" 0 ::
    ((List.range 8).map (fun k => orn (Nat.repr (k + 1)) (k + 1) (-1) "N" 0))

/-- Eight samples of speed `160000` and one of speed `160009`: mean
`160001`, standard deviation exactly `3`, `upper = 160005.5 < 160009`, and
the raw high deviation `800/160001 ≈ 0.005` rounds to `0` at two decimals. -/
def veriKucukSapma : List (Sample ℚ) :=
  ((List.range 8).map (fun k => orn (Nat.repr k) k 160000 "N" 0)) ++
    [orn "8" 8 160009 "N" 0]

/-- Eight samples of speed `1` and one of speed `10`: mean `2`, standard
deviation exactly `3`, and the last sample is a high anomaly with stored
deviation `400`. -/
def veriYuksekTanik : List (Sample ℚ) :=
  ((List.range 8).map (fun k => orn (Nat.repr k) k 1 "N" 0)) ++
    [orn "8" 8 10 "N" 0]

/-- Eight samples of speed `10` and one of speed `1`: mean `9`, standard
deviation exactly `3`, `lower = 4.5 > 0`, and the last sample is a low
anomaly with raw deviation `800/9` stored as `88.89`. -/
def veriDusukTanik : List (Sample ℚ) :=
  ((List.range 8).map (fun k => orn (Nat.repr k) k 10 "N" 0)) ++
    [orn "8" 8 1 "N" 0]

/-! ## Theorems -/

/-- C1: on the empty input sequence `windanalysis` returns, for every clock
value and every `std` parameter, the failure record
`{hata: "Veri bulunamadı", durum_kodu: -1, durum: "BAŞARISIZ"}` — status
failed, no further fields, wrapped in `Except.ok` (no exception
propagates).  The return is a value of the pure function `windanalysis`,
hence deterministic, and by definition the empty-input branch is taken
before any other component of the engine is reached. -/
theorem c1_empty_input_failure (now : String) (std : K) :
    windanalysis ([] : List (Sample K)) now std =
      .ok (.hata "Veri bulunamadı" (-1) "BAŞARISIZ") := rfl

unseal Rat.add Rat.mul Rat.inv Rat.sub in
/-- C2 (evidence of the code bug): on the nine-sample input `veriSifirOrt`
with mean exactly `0` and standard deviation exactly `3`, the sample of
speed `8` exceeds `upper = 4.5`, and the unguarded division
`(hiz - ortalama_hiz) / ortalama_hiz` of line 148 raises
`ZeroDivisionError`: the anomaly pass, and with it the whole engine, ends
in `Except.error` instead of a guarded fallback value. -/
theorem c2_zero_mean_division_fault :
    mean (veriSifirOrt.map (·.hiz)) = 0 ∧
    IsStdSapma (veriSifirOrt.map (·.hiz)) 3 ∧
    anomaliler veriSifirOrt 3 = .error () ∧
    windanalysis veriSifirOrt "" 3 = .error () := by decide

/-- C3 (evidence of the code bug): the claim says `generated_at` is
supplied by an injected clock and not read internally, but the source's
`windanalysis` (line 65) has no clock parameter and reads
`datetime.now()` inside the engine at line 395 — so no caller can supply
the "identical injected clock value" the claim quantifies over, and two
runs on identical input at different wall-clock instants differ in
`rapor_zamani`.  This theorem bounds the divergence: modelling the
internal clock reading as the explicit parameter `now`, the whole run
equals the run at the fixed reading `""` with only `rapor_zamani`
overwritten by `now` (first conjunct), and wherever a success report is
produced its `rapor_zamani` is exactly that reading (second conjunct).
Hence the internally read wall clock flows into `rapor_zamani` alone, and
every other field of the report is a function of the input (and `std`)
only — the determinism the claim wants holds of the dataflow, but the
injection it asserts does not exist in the code. -/
theorem c3_internal_clock_dataflow (data : List (Sample K)) (std : K) (now : String) :
    windanalysis data now std =
      (windanalysis data "" std).map (fun r => setRaporZamani r now) ∧
    (windanalysis data now std).map raporZamaniOf =
      (windanalysis data now std).map (fun r => (raporZamaniOf r).map (fun _ => now)) := by
  constructor
  · cases data with
    | nil => rfl
    | cons e es =>
      show windanalysis (e :: es) now std = _
      unfold windanalysis
      cases anomaliler (e :: es) std with
      | error e => rfl
      | ok anoms => rfl
  · cases data with
    | nil => rfl
    | cons e es =>
      show (windanalysis (e :: es) now std).map _ = _
      unfold windanalysis
      cases anomaliler (e :: es) std with
      | error e => rfl
      | ok anoms => rfl

/-- With a nonnegative `std`, the `mean > 0` volatility guard of the source
and the `mean = 0` guard of the spec make `volatilite > 30` come out the
same: for a negative mean the spec value `std/mean·100` is nonpositive and
the source value is `0`, so neither side exceeds `30`. -/
lemma volatilite_spec_gt30_iff (ort std : K) (hstd : 0 ≤ std) :
    (30 < volatilite_spec ort std) ↔ (30 < volatilite_orani ort std) := by
  unfold volatilite_spec volatilite_orani
  by_cases h0 : ort = 0
  · simp [h0]
  · by_cases hpos : 0 < ort
    · simp [h0, hpos]
    · have hneg : ort < 0 := lt_of_le_of_ne (not_lt.1 hpos) h0
      have hinv : ort⁻¹ ≤ 0 := (inv_nonpos).mpr hneg.le
      have h1 : std / ort ≤ 0 := by rw [div_eq_mul_inv]; exact mul_nonpos_iff.mpr (Or.inl ⟨hstd, hinv⟩)
      have h2 : std / ort * 100 ≤ 0 := mul_nonpos_iff.mpr (Or.inr ⟨h1, by norm_num⟩)
      simp only [if_neg h0, if_neg hpos]
      constructor
      · intro hc; exact absurd (lt_of_lt_of_le hc h2) (by norm_num)
      · intro hc; exact absurd hc (by norm_num)

/-- C4: for every non-empty input the overall classification follows the
claimed strict precedence order with `upper = mean + 1.5·stddev`,
`lower = max(0, mean − 1.5·stddev)` and `volatility = stddev/mean·100`
guarded to `0` at `mean = 0` (`volatilite_spec`): the result is `UNSTABLE`
iff `volatility > 30`; `HIGH` iff not so and `max > upper`; `LOW` iff
neither and `min < lower`; `NORMAL` iff none of the three — so exactly one
classification applies. -/
theorem c4_overall_classification (data : List (Sample K)) (std : K)
    (hne : data ≠ []) (hstd : 0 ≤ std) :
    (genel_durum (data.map (·.hiz)) std = "ISTIKRARSIZ" ↔
      30 < volatilite_spec (mean (data.map (·.hiz))) std) ∧
    (genel_durum (data.map (·.hiz)) std = "YUKSEK_RUZGAR" ↔
      (¬ 30 < volatilite_spec (mean (data.map (·.hiz))) std ∧
        ust_esik (mean (data.map (·.hiz))) std < listMax (data.map (·.hiz)))) ∧
    (genel_durum (data.map (·.hiz)) std = "DUSUK_RUZGAR" ↔
      (¬ 30 < volatilite_spec (mean (data.map (·.hiz))) std ∧
        ¬ ust_esik (mean (data.map (·.hiz))) std < listMax (data.map (·.hiz)) ∧
        listMin (data.map (·.hiz)) < alt_esik (mean (data.map (·.hiz))) std)) ∧
    (genel_durum (data.map (·.hiz)) std = "NORMAL" ↔
      (¬ 30 < volatilite_spec (mean (data.map (·.hiz))) std ∧
        ¬ ust_esik (mean (data.map (·.hiz))) std < listMax (data.map (·.hiz)) ∧
        ¬ listMin (data.map (·.hiz)) < alt_esik (mean (data.map (·.hiz))) std)) := by
  have hv := volatilite_spec_gt30_iff (mean (data.map (·.hiz))) std hstd
  have hdef : genel_durum (data.map (·.hiz)) std =
      (if 30 < volatilite_orani (mean (data.map (·.hiz))) std then "ISTIKRARSIZ"
       else if ust_esik (mean (data.map (·.hiz))) std < listMax (data.map (·.hiz)) then
         "YUKSEK_RUZGAR"
       else if listMin (data.map (·.hiz)) < alt_esik (mean (data.map (·.hiz))) std then
         "DUSUK_RUZGAR"
       else "NORMAL") := rfl
  rw [hdef]
  by_cases h1 : 30 < volatilite_orani (mean (data.map (·.hiz))) std
  · refine ⟨?_, ?_, ?_, ?_⟩ <;> simp [h1, hv]
  · by_cases h2 : ust_esik (mean (data.map (·.hiz))) std < listMax (data.map (·.hiz))
    · refine ⟨?_, ?_, ?_, ?_⟩ <;> simp [h1, h2, hv]
    · by_cases h3 : listMin (data.map (·.hiz)) < alt_esik (mean (data.map (·.hiz))) std
      · refine ⟨?_, ?_, ?_, ?_⟩ <;> simp [h1, h2, h3, hv]
      · refine ⟨?_, ?_, ?_, ?_⟩ <;> simp [h1, h2, h3, hv]

/-- Rounding via `rhe` never goes below the floor. -/
lemma floor_le_rhe (x : K) : ⌊x⌋ ≤ rhe x := by
  unfold rhe
  split_ifs <;> omega

/-- Rounding via `rhe` never goes above the ceiling. -/
lemma rhe_le_ceil (x : K) : rhe x ≤ ⌈x⌉ := by
  have hfc : (⌊x⌋ : K) ≤ x := Int.floor_le x
  unfold rhe
  split_ifs with h1 h2 h3
  · exact Int.floor_le_ceil x
  · exact Int.add_one_le_ceil_iff.mpr (by push_cast; linarith)
  · exact Int.floor_le_ceil x
  · exact Int.add_one_le_ceil_iff.mpr (by push_cast; linarith)

/-- Rounding to two decimals preserves nonnegativity. -/
lemma pyRound2_nonneg (x : K) (hx : 0 ≤ x) : 0 ≤ pyRound2 x := by
  have h1 : (0 : ℤ) ≤ ⌊(100 : K) * x⌋ := Int.floor_nonneg.mpr (by positivity)
  have h2 : (0 : ℤ) ≤ rhe (100 * x) := le_trans h1 (floor_le_rhe _)
  have h3 : (0 : K) ≤ (rhe (100 * x) : K) := by exact_mod_cast h2
  unfold pyRound2
  positivity

/-- Rounding to two decimals keeps values above `1` strictly positive. -/
lemma pyRound2_pos (x : K) (hx : 1 < x) : 0 < pyRound2 x := by
  have h1 : (100 : ℤ) ≤ ⌊(100 : K) * x⌋ := Int.le_floor.mpr (by push_cast; linarith)
  have h2 : (100 : ℤ) ≤ rhe (100 * x) := le_trans h1 (floor_le_rhe _)
  have h3 : (100 : K) ≤ (rhe (100 * x) : K) := by exact_mod_cast h2
  unfold pyRound2
  have : (0 : K) < (rhe (100 * x) : K) := lt_of_lt_of_le (by norm_num) h3
  positivity

/-- Rounding to two decimals keeps values below `-1` strictly negative. -/
lemma pyRound2_neg (x : K) (hx : x < -1) : pyRound2 x < 0 := by
  have h1 : ⌈(100 : K) * x⌉ ≤ -100 := Int.ceil_le.mpr (by push_cast; linarith)
  have h2 : rhe (100 * x) ≤ -100 := le_trans (rhe_le_ceil _) h1
  have h3 : (rhe (100 * x) : K) ≤ -100 := by exact_mod_cast h2
  unfold pyRound2
  have h4 : (rhe (100 * x) : K) / 100 ≤ (-100 : K) / 100 :=
    (div_le_div_right (by norm_num)).mpr h3
  have h5 : ((-100 : K)) / 100 = -1 := by norm_num
  linarith

/-- The `durum` field of a high record. -/
lemma mkYuksek_durum (data : List (Sample K)) (i : ℕ) (s : K) :
    (mkYuksek data i s).durum = "ANOMALI_YUKSEK" := rfl

/-- The `hiz` field of a high record is the speed of sample `i`. -/
lemma mkYuksek_hiz (data : List (Sample K)) (i : ℕ) (s : K) :
    (mkYuksek data i s).hiz = (data.map (·.hiz)).getD i 0 := rfl

/-- The stored deviation of a high record is the rounded raw deviation. -/
lemma mkYuksek_sapma (data : List (Sample K)) (i : ℕ) (s : K) :
    (mkYuksek data i s).sapma_yuzdesi = pyRound2 s := rfl

/-- The `durum` field of a low record. -/
lemma mkDusuk_durum (data : List (Sample K)) (i : ℕ) (s : K) :
    (mkDusuk data i s).durum = "ANOMALI_DUSUK" := rfl

/-- The map `anomaliAt` written as an explicit conditional. -/
lemma anomaliAt_eq (data : List (Sample K)) (std : K) (i : ℕ) :
    anomaliAt data std i =
      (if ust_esik (mean (data.map (·.hiz))) std < (data.map (·.hiz)).getD i 0 then
        some (mkYuksek data i
          (((data.map (·.hiz)).getD i 0 - mean (data.map (·.hiz))) /
            mean (data.map (·.hiz)) * 100))
      else if (data.map (·.hiz)).getD i 0 < alt_esik (mean (data.map (·.hiz))) std ∧
          0 < alt_esik (mean (data.map (·.hiz))) std then
        some (mkDusuk data i
          ((mean (data.map (·.hiz)) - (data.map (·.hiz)).getD i 0) /
            mean (data.map (·.hiz)) * 100))
      else none) := rfl

/-- Membership in the truncated index list. -/
lemma mem_idxFromGo (n : ℕ) :
    ∀ fuel i j, j ∈ idxFromGo n fuel i ↔ i ≤ j ∧ j < n ∧ j < i + fuel := by
  intro fuel
  induction fuel with
  | zero =>
    intro i j
    simp [idxFromGo]
    omega
  | succ fuel ih =>
    intro i j
    by_cases hi : i < n
    · simp only [idxFromGo, if_pos hi, List.mem_cons, ih]
      constructor
      · rintro (rfl | ⟨h1, h2, h3⟩)
        · exact ⟨le_refl _, hi, by omega⟩
        · exact ⟨by omega, h2, by omega⟩
      · rintro ⟨h1, h2, h3⟩
        by_cases hij : j = i
        · exact Or.inl hij
        · exact Or.inr ⟨by omega, h2, by omega⟩
    · simp only [idxFromGo, if_neg hi, List.not_mem_nil, false_iff]
      omega

/-- When the mean is nonzero, no division faults and the anomaly loop
computes exactly the per-index records of `anomaliAt`. -/
lemma anomaliGo_ok_of_ne (data : List (Sample K)) (std : K)
    (hort : mean (data.map (·.hiz)) ≠ 0) :
    ∀ fuel i, anomaliGo data std fuel i =
      .ok ((idxFromGo data.length fuel i).filterMap (anomaliAt data std)) := by
  intro fuel
  induction fuel with
  | zero => intro i; rfl
  | succ fuel ih =>
    intro i
    by_cases hi : i < data.length
    · simp only [anomaliGo, idxFromGo, if_pos hi, List.filterMap_cons, anomaliAt_eq,
        safeDiv, if_neg hort, ih]
      by_cases hust : ust_esik (mean (data.map (·.hiz))) std < (data.map (·.hiz)).getD i 0
      · simp only [if_pos hust]
      · simp only [if_neg hust]
        by_cases halt : (data.map (·.hiz)).getD i 0 < alt_esik (mean (data.map (·.hiz))) std ∧
            0 < alt_esik (mean (data.map (·.hiz))) std
        · simp only [if_pos halt]
        · simp only [if_neg halt]
    · simp only [anomaliGo, idxFromGo, if_neg hi, List.filterMap_nil]

/-- When the mean is nonzero the anomaly pass succeeds with the records of
`anomaliAt` over all indices. -/
lemma anomaliler_ok_of_ne (data : List (Sample K)) (std : K)
    (hort : mean (data.map (·.hiz)) ≠ 0) :
    anomaliler data std =
      .ok ((idxFromGo data.length data.length 0).filterMap (anomaliAt data std)) :=
  anomaliGo_ok_of_ne data std hort data.length 0

/-- When the mean is `0` (and `std ≥ 0`, as a standard deviation is), a
successful anomaly pass can only have produced the empty record list: the
low branch is suppressed because `alt_esik = 0`, and any sample entering
the high branch makes the pass fault instead of succeeding. -/
lemma anomaliGo_zero_mean (data : List (Sample K)) (std : K)
    (hort : mean (data.map (·.hiz)) = 0) (hstd : 0 ≤ std) :
    ∀ fuel i recs, anomaliGo data std fuel i = .ok recs → recs = [] := by
  have halt : alt_esik (mean (data.map (·.hiz))) std = 0 := by
    rw [hort]
    unfold alt_esik
    have : (0 : K) - 3 / 2 * std ≤ 0 := by linarith
    exact max_eq_left this
  intro fuel
  induction fuel with
  | zero => intro i recs h; exact (Except.ok.inj h).symm
  | succ fuel ih =>
    intro i recs h
    by_cases hi : i < data.length
    · by_cases hust : ust_esik (mean (data.map (·.hiz))) std < (data.map (·.hiz)).getD i 0
      · simp only [anomaliGo, if_pos hi, if_pos hust, safeDiv, if_pos hort] at h
        exact Except.noConfusion h
      · simp only [anomaliGo, if_pos hi, if_neg hust, halt, lt_self_iff_false, and_false,
          if_false] at h
        exact ih (i + 1) recs h
    · simp only [anomaliGo, if_neg hi] at h
      exact (Except.ok.inj h).symm

unseal Rat.add Rat.mul Rat.inv Rat.sub in
/-- C4 witness: the theorem applied to the concrete input `veriSifirOrt`
(with its exact standard deviation `3`), whose classification is
`YUKSEK_RUZGAR`. -/
theorem c4_overall_classification_witness :
    veriSifirOrt ≠ [] ∧ ((0 : ℚ) ≤ 3) ∧
    (genel_durum (veriSifirOrt.map (·.hiz)) 3 = "YUKSEK_RUZGAR" ↔
      (¬ 30 < volatilite_spec (mean (veriSifirOrt.map (·.hiz))) 3 ∧
        ust_esik (mean (veriSifirOrt.map (·.hiz))) 3 < listMax (veriSifirOrt.map (·.hiz)))) :=
  ⟨by decide, by decide,
    (c4_overall_classification veriSifirOrt 3 (by decide) (by decide)).2.1⟩

/-- A strictly positive lower threshold lies below the upper threshold. -/
lemma alt_le_ust (m std : K) (hstd : 0 ≤ std) (hpos : 0 < alt_esik m std) :
    alt_esik m std ≤ ust_esik m std := by
  unfold alt_esik ust_esik
  have hy : 0 < m - 3 / 2 * std := by
    by_contra hy
    push_neg at hy
    unfold alt_esik at hpos
    rw [max_eq_left hy] at hpos
    exact lt_irrefl 0 hpos
  rw [max_eq_right hy.le]
  linarith

unseal Rat.add Rat.mul Rat.inv Rat.sub in
/-- C5 counterexample: on `veriKucukSapma` the mean is positive (`160001`),
`3` is the exact standard deviation, and the anomaly pass emits exactly one
record, classified `ANOMALI_YUKSEK` with stored `sapma_yuzdesi = 0` — not
`> 0` as the claim states of the stored value: `round(x, 2)` sends the raw
deviation `800/160001 ≈ 0.005` to `0`. -/
theorem c5_stored_deviation_not_positive :
    0 < mean (veriKucukSapma.map (·.hiz)) ∧
    IsStdSapma (veriKucukSapma.map (·.hiz)) 3 ∧
    (anomaliler veriKucukSapma 3).map (fun l => l.map (fun a => (a.durum, a.sapma_yuzdesi))) =
      .ok [("ANOMALI_YUKSEK", 0)] := by decide

/-- C5 (amended): for every non-empty input with positive mean, every
record the anomaly pass emits with classification `ANOMALI_YUKSEK` has
`speed > upper`, its raw (unrounded) deviation `(speed-mean)/mean·100` is
strictly positive, and the stored `sapma_yuzdesi` — that value rounded to
two decimals — is nonnegative (by `c5_stored_deviation_not_positive` it can
be exactly `0`, so strict positivity of the stored value fails). -/
theorem c5_high_anomaly_amended (data : List (Sample K)) (std : K)
    (recs : List (Anomali K)) (hne : data ≠ []) (hstd : 0 ≤ std)
    (hort : 0 < mean (data.map (·.hiz)))
    (hok : anomaliler data std = .ok recs) :
    ∀ r ∈ recs, r.durum = "ANOMALI_YUKSEK" →
      ust_esik (mean (data.map (·.hiz))) std < r.hiz ∧
      0 < (r.hiz - mean (data.map (·.hiz))) / mean (data.map (·.hiz)) * 100 ∧
      0 ≤ r.sapma_yuzdesi := by
  intro r hr hdurum
  rw [anomaliler_ok_of_ne data std hort.ne'] at hok
  have hrecs := Except.ok.inj hok
  rw [← hrecs] at hr
  rcases List.mem_filterMap.mp hr with ⟨j, _, hfj⟩
  rw [anomaliAt_eq] at hfj
  by_cases hust : ust_esik (mean (data.map (·.hiz))) std < (data.map (·.hiz)).getD j 0
  · rw [if_pos hust] at hfj
    have hr_eq : r = mkYuksek data j
        (((data.map (·.hiz)).getD j 0 - mean (data.map (·.hiz))) /
          mean (data.map (·.hiz)) * 100) := (Option.some.inj hfj).symm
    have hgt : mean (data.map (·.hiz)) < (data.map (·.hiz)).getD j 0 := by
      have h32 : 0 ≤ 3 / 2 * std := by positivity
      unfold ust_esik at hust
      linarith
    have hraw : 0 < ((data.map (·.hiz)).getD j 0 - mean (data.map (·.hiz))) /
        mean (data.map (·.hiz)) * 100 :=
      mul_pos (div_pos (by linarith) hort) (by norm_num)
    refine ⟨?_, ?_, ?_⟩
    · rw [hr_eq, mkYuksek_hiz]; exact hust
    · rw [hr_eq, mkYuksek_hiz]; exact hraw
    · rw [hr_eq, mkYuksek_sapma]; exact pyRound2_nonneg _ hraw.le
  · rw [if_neg hust] at hfj
    by_cases halt : (data.map (·.hiz)).getD j 0 < alt_esik (mean (data.map (·.hiz))) std ∧
        0 < alt_esik (mean (data.map (·.hiz))) std
    · rw [if_pos halt] at hfj
      have hr_eq : r = mkDusuk data j
          ((mean (data.map (·.hiz)) - (data.map (·.hiz)).getD j 0) /
            mean (data.map (·.hiz)) * 100) := (Option.some.inj hfj).symm
      rw [hr_eq, mkDusuk_durum] at hdurum
      exact absurd hdurum (by decide)
    · rw [if_neg halt] at hfj
      exact Option.noConfusion hfj

unseal Rat.add Rat.mul Rat.inv Rat.sub in
/-- C5 witness: the amended theorem applied to `veriYuksekTanik` and its
only record (speed `10 > upper = 6.5`, stored deviation `400`). -/
theorem c5_high_anomaly_amended_witness :
    anomaliler veriYuksekTanik 3 = .ok [mkYuksek veriYuksekTanik 8 400] ∧
    (ust_esik (mean (veriYuksekTanik.map (·.hiz))) 3 < (mkYuksek veriYuksekTanik 8 400).hiz ∧
      0 < ((mkYuksek veriYuksekTanik 8 400).hiz - mean (veriYuksekTanik.map (·.hiz))) /
        mean (veriYuksekTanik.map (·.hiz)) * 100 ∧
      0 ≤ (mkYuksek veriYuksekTanik 8 400).sapma_yuzdesi) :=
  ⟨by decide,
    c5_high_anomaly_amended veriYuksekTanik 3 [mkYuksek veriYuksekTanik 8 400]
      (by decide) (by decide) (by decide) (by decide)
      (mkYuksek veriYuksekTanik 8 400) (by decide) (by decide)⟩

unseal Rat.add Rat.mul Rat.inv Rat.sub in
/-- C6 counterexample: on `veriDusukTanik` the single low anomaly stores
`sapma_yuzdesi = 88.89`, while the claim's formula `(mean-speed)/mean·100`
gives `800/9 = 88.888...`: the record stores the value rounded to two
decimals, not the exact quotient. -/
theorem c6_stored_deviation_rounded :
    (anomaliler veriDusukTanik 3).map (fun l => l.map (fun a => (a.durum, a.sapma_yuzdesi))) =
      .ok [("ANOMALI_DUSUK", 8889 / 100)] ∧
    (mean (veriDusukTanik.map (·.hiz)) - (veriDusukTanik.map (·.hiz)).getD 8 0) /
      mean (veriDusukTanik.map (·.hiz)) * 100 = 800 / 9 ∧
    ((8889 : ℚ) / 100 ≠ 800 / 9) := by decide

/-- C6 (amended): for every non-empty input (with `std ≥ 0`, as a standard
deviation is) on which the anomaly pass succeeds: a sample produces an
`ANOMALI_DUSUK` record iff its speed is strictly below `lower` and
`lower > 0` (first two conjuncts: completeness and soundness, the record
being exactly `mkDusuk`, which stores `deviation_pct` as
`(mean-speed)/mean·100` **rounded to two decimals**), and when `lower`
clamps to `0` no `ANOMALI_DUSUK` record is emitted at all. -/
theorem c6_low_anomaly_amended (data : List (Sample K)) (std : K)
    (recs : List (Anomali K)) (hne : data ≠ []) (hstd : 0 ≤ std)
    (hok : anomaliler data std = .ok recs) :
    (∀ i, i < data.length →
      ((data.map (·.hiz)).getD i 0 < alt_esik (mean (data.map (·.hiz))) std ∧
        0 < alt_esik (mean (data.map (·.hiz))) std) →
      mkDusuk data i ((mean (data.map (·.hiz)) - (data.map (·.hiz)).getD i 0) /
        mean (data.map (·.hiz)) * 100) ∈ recs) ∧
    (∀ r ∈ recs, r.durum = "ANOMALI_DUSUK" →
      ∃ i, i < data.length ∧
        (data.map (·.hiz)).getD i 0 < alt_esik (mean (data.map (·.hiz))) std ∧
        0 < alt_esik (mean (data.map (·.hiz))) std ∧
        r = mkDusuk data i ((mean (data.map (·.hiz)) - (data.map (·.hiz)).getD i 0) /
          mean (data.map (·.hiz)) * 100)) ∧
    (alt_esik (mean (data.map (·.hiz))) std = 0 →
      ∀ r ∈ recs, r.durum ≠ "ANOMALI_DUSUK") := by
  by_cases hort : mean (data.map (·.hiz)) = 0
  · have hnil : recs = [] := anomaliGo_zero_mean data std hort hstd data.length 0 recs hok
    subst hnil
    have halt0 : alt_esik (mean (data.map (·.hiz))) std = 0 := by
      rw [hort]
      unfold alt_esik
      exact max_eq_left (by linarith)
    refine ⟨?_, ?_, ?_⟩
    · intro i hi hcond
      rw [halt0] at hcond
      exact absurd hcond.2 (lt_irrefl 0)
    · intro r hr
      exact absurd hr (List.not_mem_nil r)
    · intro _ r hr
      exact absurd hr (List.not_mem_nil r)
  · rw [anomaliler_ok_of_ne data std hort] at hok
    have hrecs := Except.ok.inj hok
    have hsound : ∀ r ∈ recs, r.durum = "ANOMALI_DUSUK" →
        ∃ i, i < data.length ∧
          (data.map (·.hiz)).getD i 0 < alt_esik (mean (data.map (·.hiz))) std ∧
          0 < alt_esik (mean (data.map (·.hiz))) std ∧
          r = mkDusuk data i ((mean (data.map (·.hiz)) - (data.map (·.hiz)).getD i 0) /
            mean (data.map (·.hiz)) * 100) := by
      intro r hr hdurum
      rw [← hrecs] at hr
      rcases List.mem_filterMap.mp hr with ⟨j, hj, hfj⟩
      rw [anomaliAt_eq] at hfj
      by_cases hust : ust_esik (mean (data.map (·.hiz))) std < (data.map (·.hiz)).getD j 0
      · rw [if_pos hust] at hfj
        have hr_eq : r = mkYuksek data j
            (((data.map (·.hiz)).getD j 0 - mean (data.map (·.hiz))) /
              mean (data.map (·.hiz)) * 100) := (Option.some.inj hfj).symm
        rw [hr_eq, mkYuksek_durum] at hdurum
        exact absurd hdurum (by decide)
      · rw [if_neg hust] at hfj
        by_cases halt : (data.map (·.hiz)).getD j 0 < alt_esik (mean (data.map (·.hiz))) std ∧
            0 < alt_esik (mean (data.map (·.hiz))) std
        · rw [if_pos halt] at hfj
          exact ⟨j, ((mem_idxFromGo data.length data.length 0 j).mp hj).2.1, halt.1, halt.2,
            (Option.some.inj hfj).symm⟩
        · rw [if_neg halt] at hfj
          exact Option.noConfusion hfj
    refine ⟨?_, hsound, ?_⟩
    · intro i hi hcond
      rw [← hrecs]
      apply List.mem_filterMap.mpr
      refine ⟨i, (mem_idxFromGo data.length data.length 0 i).mpr ⟨Nat.zero_le i, hi, by omega⟩, ?_⟩
      have hnot : ¬ ust_esik (mean (data.map (·.hiz))) std < (data.map (·.hiz)).getD i 0 :=
        not_lt.mpr (le_of_lt (lt_of_lt_of_le hcond.1
          (alt_le_ust (mean (data.map (·.hiz))) std hstd hcond.2)))
      rw [anomaliAt_eq, if_neg hnot, if_pos hcond]
    · intro h0 r hr hd
      obtain ⟨i, _, _, hpos, _⟩ := hsound r hr hd
      rw [h0] at hpos
      exact lt_irrefl 0 hpos

unseal Rat.add Rat.mul Rat.inv Rat.sub in
/-- C6 witness: the amended theorem applied to `veriDusukTanik` at index
`8` (speed `1 < lower = 4.5`), whose low record is emitted. -/
theorem c6_low_anomaly_amended_witness :
    mkDusuk veriDusukTanik 8 ((mean (veriDusukTanik.map (·.hiz)) -
      (veriDusukTanik.map (·.hiz)).getD 8 0) / mean (veriDusukTanik.map (·.hiz)) * 100) ∈
      [mkDusuk veriDusukTanik 8 (800 / 9)] :=
  (c6_low_anomaly_amended veriDusukTanik 3 [mkDusuk veriDusukTanik 8 (800 / 9)]
    (by decide) (by decide) (by decide)).1 8 (by decide) (by decide)

/-- The rising extension never moves left. -/
lemma extendUpGo_ge (hizlar : List K) :
    ∀ fuel i, i ≤ extendUpGo hizlar fuel i := by
  intro fuel
  induction fuel with
  | zero => intro i; exact le_refl i
  | succ fuel ih =>
    intro i
    by_cases h : i < hizlar.length - 1 ∧ hizlar.getD i 0 ≤ hizlar.getD (i + 1) 0
    · simp only [extendUpGo, if_pos h]
      exact le_trans (Nat.le_succ i) (ih (i + 1))
    · simp only [extendUpGo, if_neg h]
      exact le_refl i

/-- The falling extension never moves left. -/
lemma extendDownGo_ge (hizlar : List K) :
    ∀ fuel i, i ≤ extendDownGo hizlar fuel i := by
  intro fuel
  induction fuel with
  | zero => intro i; exact le_refl i
  | succ fuel ih =>
    intro i
    by_cases h : i < hizlar.length - 1 ∧ hizlar.getD (i + 1) 0 ≤ hizlar.getD i 0
    · simp only [extendDownGo, if_pos h]
      exact le_trans (Nat.le_succ i) (ih (i + 1))
    · simp only [extendDownGo, if_neg h]
      exact le_refl i

/-- The stable extension never moves left. -/
lemma extendStableGo_ge (hizlar : List K) :
    ∀ fuel i, i ≤ extendStableGo hizlar fuel i := by
  intro fuel
  induction fuel with
  | zero => intro i; exact le_refl i
  | succ fuel ih =>
    intro i
    by_cases h : i < hizlar.length - 1 ∧ |hizlar.getD (i + 1) 0 - hizlar.getD i 0| ≤ 1
    · simp only [extendStableGo, if_pos h]
      exact le_trans (Nat.le_succ i) (ih (i + 1))
    · simp only [extendStableGo, if_neg h]
      exact le_refl i

/-- Along a rising extension the speed never decreases. -/
lemma extendUpGo_val (hizlar : List K) :
    ∀ fuel i, hizlar.getD i 0 ≤ hizlar.getD (extendUpGo hizlar fuel i) 0 := by
  intro fuel
  induction fuel with
  | zero => intro i; exact le_refl _
  | succ fuel ih =>
    intro i
    by_cases h : i < hizlar.length - 1 ∧ hizlar.getD i 0 ≤ hizlar.getD (i + 1) 0
    · simp only [extendUpGo, if_pos h]
      exact le_trans h.2 (ih (i + 1))
    · simp only [extendUpGo, if_neg h]
      exact le_refl _

/-- Along a falling extension the speed never increases. -/
lemma extendDownGo_val (hizlar : List K) :
    ∀ fuel i, hizlar.getD (extendDownGo hizlar fuel i) 0 ≤ hizlar.getD i 0 := by
  intro fuel
  induction fuel with
  | zero => intro i; exact le_refl _
  | succ fuel ih =>
    intro i
    by_cases h : i < hizlar.length - 1 ∧ hizlar.getD (i + 1) 0 ≤ hizlar.getD i 0
    · simp only [extendDownGo, if_pos h]
      exact le_trans (ih (i + 1)) h.2
    · simp only [extendDownGo, if_neg h]
      exact le_refl _

/-- A rising run that starts with a jump of more than `1` ends more than
`1` above its start. -/
lemma extendUp_entry (hizlar : List K) (i : ℕ) (hi : i < hizlar.length - 1)
    (hup : hizlar.getD i 0 + 1 < hizlar.getD (i + 1) 0) :
    hizlar.getD i 0 + 1 < hizlar.getD (extendUp hizlar i) 0 := by
  unfold extendUp
  obtain ⟨f, hf⟩ : ∃ f, hizlar.length = f + 1 := ⟨hizlar.length - 1, by omega⟩
  rw [hf]
  have hcond : i < hizlar.length - 1 ∧ hizlar.getD i 0 ≤ hizlar.getD (i + 1) 0 :=
    ⟨hi, by linarith⟩
  simp only [extendUpGo, if_pos hcond]
  exact lt_of_lt_of_le hup (extendUpGo_val hizlar f (i + 1))

/-- A falling run that starts with a drop of more than `1` ends more than
`1` below its start. -/
lemma extendDown_entry (hizlar : List K) (i : ℕ) (hi : i < hizlar.length - 1)
    (hdn : hizlar.getD (i + 1) 0 < hizlar.getD i 0 - 1) :
    hizlar.getD (extendDown hizlar i) 0 < hizlar.getD i 0 - 1 := by
  unfold extendDown
  obtain ⟨f, hf⟩ : ∃ f, hizlar.length = f + 1 := ⟨hizlar.length - 1, by omega⟩
  rw [hf]
  have hcond : i < hizlar.length - 1 ∧ hizlar.getD (i + 1) 0 ≤ hizlar.getD i 0 :=
    ⟨hi, by linarith⟩
  simp only [extendDownGo, if_pos hcond]
  exact lt_of_le_of_lt (extendDownGo_val hizlar f (i + 1)) hdn

/-- The run found at `i` starts at `i`. -/
lemma nextRun_baslangic (hizlar : List K) (i : ℕ) : (nextRun hizlar i).baslangic = i := by
  unfold nextRun
  split_ifs <;> rfl

/-- The run found at `i` does not end before `i`. -/
lemma nextRun_bitis_ge (hizlar : List K) (i : ℕ) : i ≤ (nextRun hizlar i).bitis := by
  unfold nextRun
  split_ifs
  · exact extendUpGo_ge hizlar hizlar.length i
  · exact extendDownGo_ge hizlar hizlar.length i
  · exact extendStableGo_ge hizlar hizlar.length i

/-- A rising run rises by more than `1` from start to end. -/
lemma nextRun_artis_val (hizlar : List K) (i : ℕ) (hi : i < hizlar.length - 1)
    (ht : (nextRun hizlar i).trend = .artis) :
    hizlar.getD (nextRun hizlar i).baslangic 0 + 1 <
      hizlar.getD (nextRun hizlar i).bitis 0 := by
  by_cases h1 : hizlar.getD i 0 + 1 < hizlar.getD (i + 1) 0
  · unfold nextRun
    rw [if_pos h1]
    exact extendUp_entry hizlar i hi h1
  · exfalso
    unfold nextRun at ht
    rw [if_neg h1] at ht
    by_cases h2 : hizlar.getD (i + 1) 0 < hizlar.getD i 0 - 1
    · rw [if_pos h2] at ht
      simp at ht
    · rw [if_neg h2] at ht
      simp at ht

/-- A falling run falls by more than `1` from start to end. -/
lemma nextRun_azalis_val (hizlar : List K) (i : ℕ) (hi : i < hizlar.length - 1)
    (ht : (nextRun hizlar i).trend = .azalis) :
    hizlar.getD (nextRun hizlar i).bitis 0 <
      hizlar.getD (nextRun hizlar i).baslangic 0 - 1 := by
  by_cases h1 : hizlar.getD i 0 + 1 < hizlar.getD (i + 1) 0
  · exfalso
    unfold nextRun at ht
    rw [if_pos h1] at ht
    simp at ht
  · by_cases h2 : hizlar.getD (i + 1) 0 < hizlar.getD i 0 - 1
    · unfold nextRun
      rw [if_neg h1, if_pos h2]
      exact extendDown_entry hizlar i hi h2
    · exfalso
      unfold nextRun at ht
      rw [if_neg h1, if_neg h2] at ht
      simp at ht

/-- Invariants of the trend scan from position `i`: every recorded run
starts no earlier than `i` and strictly before its end; rising (falling)
runs end more than `1` above (below) their start; and the runs are emitted
in strictly advancing, non-overlapping index order. -/
lemma trendRunsGo_spec (hizlar : List K) :
    ∀ fuel i,
      (∀ r ∈ trendRunsGo hizlar fuel i,
        i ≤ r.baslangic ∧ r.baslangic < r.bitis ∧
        (r.trend = .artis →
          hizlar.getD r.baslangic 0 + 1 < hizlar.getD r.bitis 0) ∧
        (r.trend = .azalis →
          hizlar.getD r.bitis 0 < hizlar.getD r.baslangic 0 - 1)) ∧
      (trendRunsGo hizlar fuel i).Pairwise (fun p q => p.bitis < q.baslangic) := by
  intro fuel
  induction fuel with
  | zero =>
    intro i
    exact ⟨fun r hr => absurd hr (List.not_mem_nil r), List.Pairwise.nil⟩
  | succ fuel ih =>
    intro i
    by_cases hi : i < hizlar.length - 1
    · simp only [trendRunsGo, if_pos hi]
      obtain ⟨ihAll, ihPw⟩ := ih ((nextRun hizlar i).bitis + 1)
      by_cases hrec : (nextRun hizlar i).baslangic < (nextRun hizlar i).bitis
      · rw [if_pos hrec]
        simp only [List.singleton_append]
        constructor
        · intro r hr
          rcases List.mem_cons.mp hr with rfl | hr
          · refine ⟨?_, hrec, ?_, ?_⟩
            · rw [nextRun_baslangic]
            · intro ht
              exact nextRun_artis_val hizlar i hi ht
            · intro ht
              exact nextRun_azalis_val hizlar i hi ht
          · obtain ⟨h1, h2, h3, h4⟩ := ihAll r hr
            exact ⟨le_trans (le_trans (nextRun_bitis_ge hizlar i)
              (by omega : (nextRun hizlar i).bitis ≤ (nextRun hizlar i).bitis + 1)) h1,
              h2, h3, h4⟩
        · refine List.pairwise_cons.mpr ⟨?_, ihPw⟩
          intro q hq
          have := (ihAll q hq).1
          omega
      · rw [if_neg hrec]
        simp only [List.nil_append]
        refine ⟨?_, ihPw⟩
        intro r hr
        obtain ⟨h1, h2, h3, h4⟩ := ihAll r hr
        exact ⟨le_trans (le_trans (nextRun_bitis_ge hizlar i)
          (by omega : (nextRun hizlar i).bitis ≤ (nextRun hizlar i).bitis + 1)) h1,
          h2, h3, h4⟩
    · simp only [trendRunsGo, if_neg hi]
      exact ⟨fun r hr => absurd hr (List.not_mem_nil r), List.Pairwise.nil⟩

/-- C7: for every non-empty input, every recorded trend run has
`bitis > baslangic` (so every period spans at least two samples and its
stored `sure_saat = bitis - baslangic` is positive, as witnessed on all
three period lists), and within each classification group the runs are
pairwise `p.bitis < q.baslangic` in emission order: chronologically
ordered and mutually non-overlapping. -/
theorem c7_trend_periods_ordered (data : List (Sample K)) (hne : data ≠ []) :
    (∀ r ∈ trendRuns (data.map (·.hiz)), r.baslangic < r.bitis) ∧
    (∀ t : Trend,
      ((trendRuns (data.map (·.hiz))).filter (fun r => r.trend == t)).Pairwise
        (fun p q => p.bitis < q.baslangic)) ∧
    (∀ p ∈ artis_periyotlari data, 0 < p.sure_saat) ∧
    (∀ p ∈ azalis_periyotlari data, 0 < p.sure_saat) ∧
    (∀ p ∈ sabit_periyotlari data, 0 < p.sure_saat) := by
  obtain ⟨hAll, hPw⟩ :=
    trendRunsGo_spec (data.map (·.hiz)) ((data.map (·.hiz)).length + 1) 0
  refine ⟨fun r hr => (hAll r hr).2.1, fun t => hPw.sublist (List.filter_sublist _), ?_, ?_, ?_⟩
  · intro p hp
    rcases List.mem_map.mp hp with ⟨r, hr, rfl⟩
    have hlt := (hAll r (List.mem_of_mem_filter hr)).2.1
    show 0 < r.bitis - r.baslangic
    omega
  · intro p hp
    rcases List.mem_map.mp hp with ⟨r, hr, rfl⟩
    have hlt := (hAll r (List.mem_of_mem_filter hr)).2.1
    show 0 < r.bitis - r.baslangic
    omega
  · intro p hp
    rcases List.mem_map.mp hp with ⟨r, hr, rfl⟩
    have hlt := (hAll r (List.mem_of_mem_filter hr)).2.1
    show 0 < r.bitis - r.baslangic
    omega

unseal Rat.add Rat.mul Rat.inv Rat.sub in
/-- C7 witness: the theorem applied to the source's 9-sample fixture, whose
scan records the runs `(0,2,SABIT)`, `(3,5,ARTIS)`, `(6,8,AZALIS)`. -/
theorem c7_trend_periods_ordered_witness :
    ((⟨3, 5, Trend.artis⟩ : Run).baslangic < (⟨3, 5, Trend.artis⟩ : Run).bitis) ∧
    ((trendRuns (veriOrnek.map (·.hiz))).filter (fun r => r.trend == Trend.artis)).Pairwise
      (fun p q => p.bitis < q.baslangic) ∧
    0 < (mkPeriyot veriOrnek ⟨3, 5, Trend.artis⟩).sure_saat :=
  ⟨(c7_trend_periods_ordered veriOrnek (by decide)).1 ⟨3, 5, Trend.artis⟩ (by decide),
    (c7_trend_periods_ordered veriOrnek (by decide)).2.1 Trend.artis,
    (c7_trend_periods_ordered veriOrnek (by decide)).2.2.1
      (mkPeriyot veriOrnek ⟨3, 5, Trend.artis⟩) (by decide)⟩

/-- C10: every recorded rising period stores a strictly positive `degisim`
and every recorded falling period a strictly negative one: a rising run
starts with a jump of more than `1` and extends non-decreasingly, so its
raw delta exceeds `1` and survives rounding to two decimals (symmetrically
for falling runs). -/
theorem c10_trend_delta_signs (data : List (Sample K)) :
    (∀ p ∈ artis_periyotlari data, 0 < p.degisim) ∧
    (∀ p ∈ azalis_periyotlari data, p.degisim < 0) := by
  obtain ⟨hAll, _⟩ :=
    trendRunsGo_spec (data.map (·.hiz)) ((data.map (·.hiz)).length + 1) 0
  constructor
  · intro p hp
    rcases List.mem_map.mp hp with ⟨r, hr, rfl⟩
    have htr : r.trend = .artis := by
      have := List.of_mem_filter hr
      exact beq_iff_eq.mp this
    have hv := (hAll r (List.mem_of_mem_filter hr)).2.2.1 htr
    show 0 < pyRound2 ((data.map (·.hiz)).getD r.bitis 0 - (data.map (·.hiz)).getD r.baslangic 0)
    apply pyRound2_pos
    linarith
  · intro p hp
    rcases List.mem_map.mp hp with ⟨r, hr, rfl⟩
    have htr : r.trend = .azalis := by
      have := List.of_mem_filter hr
      exact beq_iff_eq.mp this
    have hv := (hAll r (List.mem_of_mem_filter hr)).2.2.2 htr
    show pyRound2 ((data.map (·.hiz)).getD r.bitis 0 - (data.map (·.hiz)).getD r.baslangic 0) < 0
    apply pyRound2_neg
    linarith

unseal Rat.add Rat.mul Rat.inv Rat.sub in
/-- C10 witness: on the fixture, the rising period `13 → 22` stores
`degisim = 9 > 0` and the falling period `18 → 12` stores
`degisim = -6 < 0`. -/
theorem c10_trend_delta_signs_witness :
    0 < (mkPeriyot veriOrnek ⟨3, 5, Trend.artis⟩).degisim ∧
    (mkPeriyot veriOrnek ⟨6, 8, Trend.azalis⟩).degisim < 0 :=
  ⟨(c10_trend_delta_signs veriOrnek).1 (mkPeriyot veriOrnek ⟨3, 5, Trend.artis⟩) (by decide),
    (c10_trend_delta_signs veriOrnek).2 (mkPeriyot veriOrnek ⟨6, 8, Trend.azalis⟩) (by decide)⟩

/-- The `veri_sayisi` field of a bucket is the number of speeds in it. -/
lemma mkSaatlik_veri (ort std : K) (cur : Option ℕ) (hs : List K) :
    (mkSaatlik ort std cur hs).veri_sayisi = hs.length := rfl

/-- The running invariant of the hourly loop: buckets flushed so far plus
the open bucket plus the unread samples account for every sample (the open
speed list is empty while no hour has been seen — the source's invariant
between `current_hour` and `hour_speeds`). -/
lemma saatGo_sum (ort std : K) :
    ∀ (rest : List (Sample K)) (cur : Option ℕ) (hs : List K) (acc : List (Saatlik K)),
      (cur = none → hs = []) →
      ((saatGo ort std rest cur hs acc).map (·.veri_sayisi)).sum =
        ((acc.map (·.veri_sayisi)).sum + hs.length) + rest.length := by
  intro rest
  induction rest with
  | nil =>
    intro cur hs acc hinv
    by_cases h : hs.isEmpty
    · have h0 : hs = [] := List.isEmpty_iff.mp h
      simp [saatGo, h, h0]
    · simp [saatGo, h, mkSaatlik_veri]
  | cons e rest ih =>
    intro cur hs acc hinv
    cases cur with
    | none =>
      have h0 : hs = [] := hinv rfl
      subst h0
      show ((saatGo ort std rest (some e.saat) [e.hiz] acc).map (·.veri_sayisi)).sum = _
      rw [ih (some e.saat) [e.hiz] acc (fun hh => Option.noConfusion hh)]
      simp
      omega
    | some c =>
      simp only [saatGo]
      by_cases hsaat : e.saat = c
      · rw [if_pos hsaat,
          ih (some c) (hs ++ [e.hiz]) acc (fun hh => Option.noConfusion hh)]
        simp
        omega
      · rw [if_neg hsaat,
          ih (some e.saat) [e.hiz] (acc ++ [mkSaatlik ort std (some c) hs])
            (fun hh => Option.noConfusion hh)]
        simp [mkSaatlik_veri]
        omega

/-- C9: for every non-empty input (and any `std`), the hourly bucket
sample counts sum to the total number of input samples: the contiguous
coalescing puts every sample in exactly one bucket. -/
theorem c9_hourly_counts_total (data : List (Sample K)) (std : K) (hne : data ≠ []) :
    ((saatlik_analiz data std).map (·.veri_sayisi)).sum = data.length := by
  unfold saatlik_analiz
  rw [saatGo_sum (mean (data.map (·.hiz))) std data none [] [] (fun _ => rfl)]
  simp

unseal Rat.add Rat.mul Rat.inv Rat.sub in
/-- C9 witness: the theorem applied to the 9-sample fixture. -/
theorem c9_hourly_counts_total_witness :
    ((saatlik_analiz veriOrnek (0 : ℚ)).map (·.veri_sayisi)).sum = veriOrnek.length :=
  c9_hourly_counts_total veriOrnek 0 (by decide)

/-- The first occurrence of a member comes before the end of the list. -/
lemma ilkIndeks_lt_length (l : List String) (a : String) (h : a ∈ l) :
    ilkIndeks l a < l.length := by
  induction l with
  | nil => exact absurd h (List.not_mem_nil a)
  | cons x xs ih =>
    by_cases hx : x = a
    · simp [ilkIndeks, hx]
    · have : a ∈ xs := by
        rcases List.mem_cons.mp h with h | h
        · exact absurd h.symm hx
        · exact h
      simp only [ilkIndeks, if_neg hx, List.length_cons]
      exact Nat.succ_lt_succ (ih this)

/-- The first occurrence of a member is unchanged by appending. -/
lemma ilkIndeks_append_left (l l₂ : List String) (a : String) (h : a ∈ l) :
    ilkIndeks (l ++ l₂) a = ilkIndeks l a := by
  induction l with
  | nil => exact absurd h (List.not_mem_nil a)
  | cons x xs ih =>
    by_cases hx : x = a
    · simp [ilkIndeks, hx]
    · have : a ∈ xs := by
        rcases List.mem_cons.mp h with h | h
        · exact absurd h.symm hx
        · exact h
      simp only [List.cons_append, ilkIndeks, if_neg hx]
      exact congrArg (· + 1) (ih this)

/-- Appending a fresh element puts its first occurrence at the old length. -/
lemma ilkIndeks_append_fresh (l : List String) (a : String) (h : a ∉ l) :
    ilkIndeks (l ++ [a]) a = l.length := by
  induction l with
  | nil => simp [ilkIndeks]
  | cons x xs ih =>
    have hx : x ≠ a := fun hxa => h (hxa ▸ List.mem_cons_self x xs)
    have hxs : a ∉ xs := fun hm => h (List.mem_cons_of_mem x hm)
    simp only [List.cons_append, ilkIndeks, if_neg hx, List.length_cons]
    exact congrArg (· + 1) (ih hxs)

/-- Invariant of tabulation: after folding `yonStep` over `rest` starting
from a table `acc` faithful to the already-read prefix `pref`, the table is
faithful to `pref ++ rest`: entries carry exact counts of present keys,
every read direction has an entry, and entries are ordered by first
occurrence. -/
lemma yonStep_foldl_inv :
    ∀ (rest pref : List String) (acc : List (String × ℕ)),
      (∀ p ∈ acc, p.2 = pref.count p.1 ∧ p.1 ∈ pref) →
      (∀ y ∈ pref, ∃ c, (y, c) ∈ acc) →
      acc.Pairwise (fun p q => ilkIndeks pref p.1 < ilkIndeks pref q.1) →
      (∀ p ∈ rest.foldl yonStep acc, p.2 = (pref ++ rest).count p.1 ∧ p.1 ∈ pref ++ rest) ∧
      (∀ y ∈ pref ++ rest, ∃ c, (y, c) ∈ rest.foldl yonStep acc) ∧
      (rest.foldl yonStep acc).Pairwise
        (fun p q => ilkIndeks (pref ++ rest) p.1 < ilkIndeks (pref ++ rest) q.1) := by
  intro rest
  induction rest with
  | nil =>
    intro pref acc h1 h2 h3
    simp only [List.foldl_nil, List.append_nil]
    exact ⟨h1, h2, h3⟩
  | cons y rs ih =>
    intro pref acc h1 h2 h3
    have hstep :
        (∀ p ∈ yonStep acc y, p.2 = (pref ++ [y]).count p.1 ∧ p.1 ∈ pref ++ [y]) ∧
        (∀ z ∈ pref ++ [y], ∃ c, (z, c) ∈ yonStep acc y) ∧
        (yonStep acc y).Pairwise
          (fun p q => ilkIndeks (pref ++ [y]) p.1 < ilkIndeks (pref ++ [y]) q.1) := by
      by_cases hany : acc.any (fun p => p.1 = y)
      · have hmemy : ∃ c, (y, c) ∈ acc := by
          obtain ⟨p, hp, hpy⟩ := List.any_eq_true.mp hany
          have : p.1 = y := of_decide_eq_true hpy
          exact ⟨p.2, by rw [← this]; exact hp⟩
        refine ⟨?_, ?_, ?_⟩
        · intro p hp
          rw [yonStep, if_pos hany] at hp
          rcases List.mem_map.mp hp with ⟨q, hq, rfl⟩
          obtain ⟨hqc, hqm⟩ := h1 q hq
          by_cases hqy : q.1 = y
          · rw [if_pos hqy]
            constructor
            · rw [List.count_append, hqy]
              simp [hqc, hqy]
            · exact List.mem_append_left _ hqm
          · rw [if_neg hqy]
            constructor
            · rw [List.count_append]
              have : [y].count q.1 = 0 := by
                simp [List.count_cons]
                exact fun hy => absurd hy.symm hqy
              rw [this, hqc, Nat.add_zero]
            · exact List.mem_append_left _ hqm
        · intro z hz
          rcases List.mem_append.mp hz with hz | hz
          · obtain ⟨c, hc⟩ := h2 z hz
            refine ⟨if z = y then c + 1 else c, ?_⟩
            rw [yonStep, if_pos hany]
            by_cases hzy : z = y
            · rw [if_pos hzy]
              exact List.mem_map.mpr ⟨(z, c), hc, by simp [hzy]⟩
            · rw [if_neg hzy]
              exact List.mem_map.mpr ⟨(z, c), hc, by simp [hzy]⟩
          · have hzy : z = y := List.mem_singleton.mp hz
            obtain ⟨c, hc⟩ := hmemy
            refine ⟨c + 1, ?_⟩
            rw [yonStep, if_pos hany]
            exact List.mem_map.mpr ⟨(y, c), hc, by simp [hzy]⟩
        · rw [yonStep, if_pos hany]
          rw [List.pairwise_map]
          have h3' : acc.Pairwise
              (fun p q => ilkIndeks (pref ++ [y]) p.1 < ilkIndeks (pref ++ [y]) q.1) := by
            refine h3.imp_of_mem ?_
            intro p q hp hq hlt
            rw [ilkIndeks_append_left pref [y] p.1 (h1 p hp).2,
              ilkIndeks_append_left pref [y] q.1 (h1 q hq).2]
            exact hlt
          refine h3'.imp_of_mem ?_
          intro p q hp hq hlt
          have hkey : ∀ r : String × ℕ,
              ((if r.1 = y then (r.1, r.2 + 1) else r) : String × ℕ).1 = r.1 := by
            intro r
            by_cases h : r.1 = y <;> simp [h]
          rw [hkey p, hkey q]
          exact hlt
      · have hfresh : y ∉ pref := by
          intro hy
          obtain ⟨c, hc⟩ := h2 y hy
          have : acc.any (fun p => p.1 = y) := by
            refine List.any_eq_true.mpr ⟨(y, c), hc, ?_⟩
            exact decide_eq_true rfl
          exact hany this
        refine ⟨?_, ?_, ?_⟩
        · intro p hp
          rw [yonStep, if_neg hany] at hp
          rcases List.mem_append.mp hp with hp | hp
          · obtain ⟨hqc, hqm⟩ := h1 p hp
            have hpy : p.1 ≠ y := fun hy => hfresh (hy ▸ hqm)
            constructor
            · rw [List.count_append]
              have : [y].count p.1 = 0 := by
                simp [List.count_cons]
                exact fun hy => absurd hy.symm hpy
              rw [this, hqc, Nat.add_zero]
            · exact List.mem_append_left _ hqm
          · have hpe : p = (y, 1) := List.mem_singleton.mp hp
            subst hpe
            constructor
            · rw [List.count_append]
              have h0 : pref.count y = 0 := List.count_eq_zero.mpr hfresh
              simp [h0]
            · exact List.mem_append_right _ (List.mem_singleton.mpr rfl)
        · intro z hz
          rw [yonStep, if_neg hany]
          rcases List.mem_append.mp hz with hz | hz
          · obtain ⟨c, hc⟩ := h2 z hz
            exact ⟨c, List.mem_append_left _ hc⟩
          · have hzy : z = y := List.mem_singleton.mp hz
            exact ⟨1, List.mem_append_right _ (by simp [hzy])⟩
        · rw [yonStep, if_neg hany]
          rw [List.pairwise_append]
          refine ⟨?_, List.pairwise_singleton _ _, ?_⟩
          · refine h3.imp_of_mem ?_
            intro p q hp hq hlt
            rw [ilkIndeks_append_left pref [y] p.1 (h1 p hp).2,
              ilkIndeks_append_left pref [y] q.1 (h1 q hq).2]
            exact hlt
          · intro p hp q hq
            have hqe : q = (y, 1) := List.mem_singleton.mp hq
            subst hqe
            have hpm : p.1 ∈ pref := (h1 p hp).2
            rw [ilkIndeks_append_left pref [y] p.1 hpm, ilkIndeks_append_fresh pref y hfresh]
            exact ilkIndeks_lt_length pref p.1 hpm
    have hmain := ih (pref ++ [y]) (yonStep acc y) hstep.1 hstep.2.1 hstep.2.2
    rw [List.append_assoc, List.singleton_append] at hmain
    exact hmain

/-- The frequency table of the whole input is faithful: exact counts,
complete key coverage, and entries ordered by first occurrence. -/
lemma yon_frekans_inv (yonler : List String) :
    (∀ p ∈ yon_frekans yonler, p.2 = yonler.count p.1 ∧ p.1 ∈ yonler) ∧
    (∀ y ∈ yonler, ∃ c, (y, c) ∈ yon_frekans yonler) ∧
    (yon_frekans yonler).Pairwise
      (fun p q => ilkIndeks yonler p.1 < ilkIndeks yonler q.1) := by
  have := yonStep_foldl_inv yonler [] []
    (fun p hp => absurd hp (List.not_mem_nil p))
    (fun y hy => absurd hy (List.not_mem_nil y))
    List.Pairwise.nil
  simpa using this

/-- Python's `max` keeps the earlier element on ties: the fold used by
`hakim_yon` splits its list around its result, with every earlier entry
strictly smaller and every later entry no larger. -/
lemma enBuyuk_split :
    ∀ (rest : List (String × ℕ)) (p : String × ℕ),
      ∃ l1 l2,
        p :: rest = l1 ++ (rest.foldl (fun en q => if en.2 < q.2 then q else en) p) :: l2 ∧
        (∀ q ∈ l1, q.2 < (rest.foldl (fun en q => if en.2 < q.2 then q else en) p).2) ∧
        (∀ q ∈ l2, q.2 ≤ (rest.foldl (fun en q => if en.2 < q.2 then q else en) p).2) := by
  intro rest
  induction rest with
  | nil =>
    intro p
    exact ⟨[], [], rfl, fun q hq => absurd hq (List.not_mem_nil q),
      fun q hq => absurd hq (List.not_mem_nil q)⟩
  | cons q rs ih =>
    intro p
    simp only [List.foldl_cons]
    by_cases hpq : p.2 < q.2
    · simp only [if_pos hpq]
      obtain ⟨l1, l2, heq, hl1, hl2⟩ := ih q
      have hqle : q.2 ≤ (rs.foldl (fun en q => if en.2 < q.2 then q else en) q).2 := by
        have hq_mem : q ∈ q :: rs := List.mem_cons_self q rs
        rw [heq] at hq_mem
        rcases List.mem_append.mp hq_mem with h | h
        · exact le_of_lt (hl1 q h)
        · rcases List.mem_cons.mp h with h | h
          · exact le_of_eq (congrArg Prod.snd h)
          · exact hl2 q h
      refine ⟨p :: l1, l2, ?_, ?_, hl2⟩
      · rw [List.cons_append, ← heq]
      · intro x hx
        rcases List.mem_cons.mp hx with rfl | hx
        · exact lt_of_lt_of_le hpq hqle
        · exact hl1 x hx
    · simp only [if_neg hpq]
      obtain ⟨l1, l2, heq, hl1, hl2⟩ := ih p
      cases l1 with
      | nil =>
        simp only [List.nil_append] at heq
        injection heq with hp_eq hl2_eq
        refine ⟨[], q :: rs, ?_, fun x hx => absurd hx (List.not_mem_nil x), ?_⟩
        · rw [List.nil_append, ← hp_eq]
        · intro x hx
          rcases List.mem_cons.mp hx with rfl | hx
          · rw [← hp_eq]
            exact not_lt.mp hpq
          · rw [← hl2_eq] at hl2
            exact hl2 x hx
      | cons a t =>
        simp only [List.cons_append] at heq
        injection heq with ha ht
        have hpl1 : p.2 < (rs.foldl (fun en q => if en.2 < q.2 then q else en) p).2 := by
          have := hl1 a (List.mem_cons_self a t)
          rw [← ha] at this
          exact this
        refine ⟨p :: q :: t, l2, ?_, ?_, hl2⟩
        · rw [List.cons_append, List.cons_append, ← ht]
        · intro x hx
          rcases List.mem_cons.mp hx with rfl | hx
          · exact hpl1
          · rcases List.mem_cons.mp hx with rfl | hx
            · exact lt_of_le_of_lt (not_lt.mp hpq) hpl1
            · exact hl1 x (List.mem_cons_of_mem a hx)

/-- C8: for every non-empty direction sequence, the dominant direction of
the source (`hakim_yon` over `yon_frekans`) occurs in the input, attains
the maximal observation count, and on ties has the earliest first
occurrence in input order — a deterministic result. -/
theorem c8_dominant_direction (yonler : List String) (hne : yonler ≠ []) :
    hakim_yon (yon_frekans yonler) ∈ yonler ∧
    (∀ y ∈ yonler, yonler.count y ≤ yonler.count (hakim_yon (yon_frekans yonler))) ∧
    (∀ y ∈ yonler, yonler.count y = yonler.count (hakim_yon (yon_frekans yonler)) →
      ilkIndeks yonler (hakim_yon (yon_frekans yonler)) ≤ ilkIndeks yonler y) := by
  obtain ⟨hcnt, hkeys, hpw⟩ := yon_frekans_inv yonler
  obtain ⟨p, rest, hfreq⟩ : ∃ p rest, yon_frekans yonler = p :: rest := by
    cases hf : yon_frekans yonler with
    | nil =>
      exfalso
      cases yonler with
      | nil => exact hne rfl
      | cons a l =>
        obtain ⟨c, hc⟩ := hkeys a (List.mem_cons_self a l)
        rw [hf] at hc
        exact List.not_mem_nil _ hc
    | cons p rest => exact ⟨p, rest, rfl⟩
  obtain ⟨l1, l2, heq, hl1, hl2⟩ := enBuyuk_split rest p
  have hhakim : hakim_yon (yon_frekans yonler) =
      (rest.foldl (fun en q => if en.2 < q.2 then q else en) p).1 := by
    rw [hfreq]
    rfl
  have hmem : rest.foldl (fun en q => if en.2 < q.2 then q else en) p ∈ yon_frekans yonler := by
    rw [hfreq, heq]
    exact List.mem_append_right _ (List.mem_cons_self _ _)
  obtain ⟨hmc, hmm⟩ := hcnt _ hmem
  refine ⟨?_, ?_, ?_⟩
  · rw [hhakim]
    exact hmm
  · intro y hy
    obtain ⟨c, hc⟩ := hkeys y hy
    have hcc : c = yonler.count y := (hcnt (y, c) hc).1
    have hle : c ≤ (rest.foldl (fun en q => if en.2 < q.2 then q else en) p).2 := by
      rw [hfreq, heq] at hc
      rcases List.mem_append.mp hc with h | h
      · exact le_of_lt (hl1 _ h)
      · rcases List.mem_cons.mp h with h | h
        · exact le_of_eq (congrArg Prod.snd h)
        · exact hl2 _ h
    rw [hhakim, ← hmc, ← hcc]
    exact hle
  · intro y hy hcnt_eq
    obtain ⟨c, hc⟩ := hkeys y hy
    have hcc : c = yonler.count y := (hcnt (y, c) hc).1
    have hceq : c = (rest.foldl (fun en q => if en.2 < q.2 then q else en) p).2 := by
      rw [hcc, hcnt_eq, hhakim, ← hmc]
    rw [hfreq, heq] at hc
    rcases List.mem_append.mp hc with h | h
    · exact absurd (hl1 _ h) (by rw [hceq]; exact lt_irrefl _)
    · rcases List.mem_cons.mp h with h | h
      · have hy_eq : y = (rest.foldl (fun en q => if en.2 < q.2 then q else en) p).1 :=
          congrArg Prod.fst h
        rw [hhakim, ← hy_eq]
      · have hpw' := hpw
        rw [hfreq, heq] at hpw'
        have hcross := (List.pairwise_append.mp hpw').2.1
        have hR := (List.pairwise_cons.mp hcross).1 (y, c) h
        rw [hhakim]
        exact le_of_lt hR

set_option maxHeartbeats 1000000 in
/-- C8 witness: on the fixture's directions the dominant is `GGD` (count
5); it beats `GD` (count 3), and among directions tying with the dominant
(itself, via `GGD`) it has the earliest first occurrence. -/
theorem c8_dominant_direction_witness :
    hakim_yon (yon_frekans (veriOrnek.map (·.yon))) ∈ veriOrnek.map (·.yon) ∧
    (veriOrnek.map (·.yon)).count "GD" ≤
      (veriOrnek.map (·.yon)).count (hakim_yon (yon_frekans (veriOrnek.map (·.yon)))) ∧
    ilkIndeks (veriOrnek.map (·.yon)) (hakim_yon (yon_frekans (veriOrnek.map (·.yon)))) ≤
      ilkIndeks (veriOrnek.map (·.yon)) "GGD" := by
  have hne : veriOrnek.map (·.yon) ≠ [] := by decide
  have h := c8_dominant_direction (veriOrnek.map (·.yon)) hne
  refine ⟨h.1, h.2.1 "GD" (by decide), h.2.2 "GGD" (by decide) (by decide)⟩

end Wind
